import Mathlib

/-!
Verification of the 68000-style opcode decoder and table-size explorer in
opcodes.py.

The script has three parts that matter here:

* construction of the matcher table: for each (mnemonic, encoding) pair it
  folds over the characters of the encoding, building set_bits (1 where the
  symbol is '1') and any_bits (1 where the symbol is not 'x');
* the function match(word): a first-match linear scan over the matcher
  table, returning the mnemonic of the first rule with
  (word and any_bits) xor set_bits == 0, or Python None;
* the recursive function check(prefix, lvl): sizes a nibble-wise multi-level
  table.  For lvl < 4 it scans all completions of the prefix and collapses
  the node into a leaf when the scan reports that all words agree; otherwise
  it recurses into 16 children.  Node shapes are content-hashed and a
  module-level set (luts) deduplicates repeated shapes.

Python values that the script feeds to hash() are modelled by the inductive
type PVal (the None object, a string, or a tuple of values), and hash itself
is modelled as the identity on PVal: distinct PVal values are treated as
having distinct hashes.  Hash collisions of CPython, which are possible but
astronomically unlikely and value-dependent, are not modelled.

The Python identifier named prefix is rendered as pfx because this
development cannot use that identifier.
-/

set_option maxRecDepth 8000
set_option maxHeartbeats 2000000

namespace Zgens

/-- Model of the Python values the script passes to hash(): the None object,
strings, and tuples of such values.  Used as content-hash keys. -/
inductive PVal where
  | pyNone : PVal
  | str : String → PVal
  | tup : List PVal → PVal
deriving Repr

mutual

def PVal.beq : PVal → PVal → Bool
  | .pyNone, .pyNone => true
  | .str a, .str b => a == b
  | .tup a, .tup b => PVal.beqList a b
  | _, _ => false

def PVal.beqList : List PVal → List PVal → Bool
  | [], [] => true
  | a :: as, b :: bs => PVal.beq a b && PVal.beqList as bs
  | _, _ => false

end

mutual

theorem PVal.beq_iff : ∀ a b : PVal, PVal.beq a b = true ↔ a = b
  | .pyNone, .pyNone => by simp [PVal.beq]
  | .pyNone, .str _ => by simp [PVal.beq]
  | .pyNone, .tup _ => by simp [PVal.beq]
  | .str _, .pyNone => by simp [PVal.beq]
  | .str _, .str _ => by simp [PVal.beq]
  | .str _, .tup _ => by simp [PVal.beq]
  | .tup _, .pyNone => by simp [PVal.beq]
  | .tup _, .str _ => by simp [PVal.beq]
  | .tup a, .tup b => by
      simp only [PVal.beq, PVal.beqList_iff a b, PVal.tup.injEq]

theorem PVal.beqList_iff : ∀ a b : List PVal, PVal.beqList a b = true ↔ a = b
  | [], [] => by simp [PVal.beqList]
  | [], _ :: _ => by simp [PVal.beqList]
  | _ :: _, [] => by simp [PVal.beqList]
  | a :: as, b :: bs => by
      simp only [PVal.beqList, Bool.and_eq_true, PVal.beq_iff a b,
        PVal.beqList_iff as bs, List.cons.injEq]

end

instance : DecidableEq PVal := fun a b =>
  decidable_of_iff (PVal.beq a b = true) (PVal.beq_iff a b)

/-- Python string repetition s * n (n concatenated copies of s). -/
def pyRepeat (s : String) : Nat → String
  | 0 => ""
  | n + 1 => s ++ pyRepeat s n

/-- Matcher-table construction, from the loop over the encoding string:
set_bits and any_bits both start at 0; for each symbol both are shifted left
one bit, set_bits gets a 1 when the symbol is '1', and any_bits gets a 1
when the symbol is not 'x'. -/
def compileBits (enc : List Char) : Nat × Nat :=
  enc.foldl
    (fun p c =>
      ((p.1 <<< 1) ||| (if c = '1' then 1 else 0),
       (p.2 <<< 1) ||| (if c ≠ 'x' then 1 else 0)))
    (0, 0)

/-- Matcher construction over a rule list: each rule (mnemonic, encoding)
becomes the triple (mnemonic, set_bits, any_bits).  There is no validation
of pattern length or symbols anywhere in the construction. -/
def buildMatchers (rules : List (String × String)) : List (String × Nat × Nat) :=
  rules.map fun r => (r.1, compileBits r.2.data)

/-- First-match scan of match(word) over a matcher list: the first rule with
(word and any_bits) xor set_bits == 0 wins; None when no rule matches. -/
def matchList : List (String × Nat × Nat) → Nat → Option String
  | [], _ => none
  | (name, set_bits, any_bits) :: rest, word =>
    if (word &&& any_bits) ^^^ set_bits == 0 then some name
    else matchList rest word

/-- The opcodes table of the script, transcribed verbatim (including the
17-symbol shift/rotate register patterns and the 15-symbol EXG patterns). -/
def opcodes : List (String × String) := [
  ("ORItoCCR", "0000000000111100"),
  ("ORItoSR", "0000000001111100"),
  ("ANDItoCCR", "0000001000111100"),
  ("ANDItoSR", "0000001001111100"),
  ("EORItoCCR", "0000101000111100"),
  ("EORItoSR", "0000101001111100"),
  ("ILLEGAL", "0100101011111100"),
  ("RESET", "0100111001110000"),
  ("NOP", "0100111001110001"),
  ("STOP", "0100111001110010"),
  ("RTE", "0100111001110011"),
  ("RTS", "0100111001110101"),
  ("TRAPV", "0100111001110110"),
  ("RTR", "0100111001110111"),
  ("SWAP", "0100100001000xxx"),
  ("LINK", "0100111001010xxx"),
  ("UNLK", "0100111001011xxx"),
  ("EXTw", "0100100010000xxx"),
  ("EXTl", "0100100011000xxx"),
  ("TRAP", "010011100100xxxx"),
  ("MOVEUSP", "010011100110xxxx"),
  ("BTSTr", "000010000000xxxx"),
  ("BCHGr", "000010000100xxxx"),
  ("BCLRr", "000010001000xxxx"),
  ("BSETr", "000010001100xxxx"),
  ("BTSTm", "0000100000xxxxxx"),
  ("BCHGm", "0000100001xxxxxx"),
  ("BCLRm", "0000100010xxxxxx"),
  ("BSETm", "0000100011xxxxxx"),
  ("MOVEfromSR", "0100000011xxxxxx"),
  ("MOVEtoCCR", "0100010011xxxxxx"),
  ("MOVEtoSR", "0100011011xxxxxx"),
  ("NBCD", "0100100000xxxxxx"),
  ("PEA", "0100100001xxxxxx"),
  ("TAS", "0100101011xxxxxx"),
  ("JSR", "0100111010xxxxxx"),
  ("JMP", "0100111011xxxxxx"),
  ("ASRm", "1110000011xxxxxx"),
  ("LSRm", "1110001011xxxxxx"),
  ("ROXRm", "1110010011xxxxxx"),
  ("RORm", "1110011011xxxxxx"),
  ("ASLm", "1110000111xxxxxx"),
  ("LSLm", "1110001111xxxxxx"),
  ("ROXLm", "1110010111xxxxxx"),
  ("ROLm", "1110011111xxxxxx"),
  ("ORIb", "0000000000xxxxxx"),
  ("ORIw", "0000000001xxxxxx"),
  ("ORIl", "0000000010xxxxxx"),
  ("ANDIb", "0000001000xxxxxx"),
  ("ANDIw", "0000001001xxxxxx"),
  ("ANDIl", "0000001010xxxxxx"),
  ("SUBIb", "0000010000xxxxxx"),
  ("SUBIw", "0000010001xxxxxx"),
  ("SUBIl", "0000010010xxxxxx"),
  ("ADDIb", "0000011000xxxxxx"),
  ("ADDIw", "0000011001xxxxxx"),
  ("ADDIl", "0000011010xxxxxx"),
  ("EORIb", "0000101000xxxxxx"),
  ("EORIw", "0000101001xxxxxx"),
  ("EORIl", "0000101010xxxxxx"),
  ("CMPIb", "0000110000xxxxxx"),
  ("CMPIw", "0000110001xxxxxx"),
  ("CMPIl", "0000110010xxxxxx"),
  ("CLRb", "0100001000xxxxxx"),
  ("CLRw", "0100001001xxxxxx"),
  ("CLRl", "0100001010xxxxxx"),
  ("NEGb", "0100010000xxxxxx"),
  ("NEGw", "0100010001xxxxxx"),
  ("NEGl", "0100010010xxxxxx"),
  ("NOTb", "0100011000xxxxxx"),
  ("NOTw", "0100011001xxxxxx"),
  ("NOTl", "0100011010xxxxxx"),
  ("TSTb", "0100101000xxxxxx"),
  ("TSTw", "0100101001xxxxxx"),
  ("TSTl", "0100101010xxxxxx"),
  ("CMPMb", "1011xxx100001xxx"),
  ("CMPMw", "1011xxx101001xxx"),
  ("CMPMl", "1011xxx110001xxx"),
  ("MOVEPw", "0000xxx1x0001xxx"),
  ("MOVEPl", "0000xxx1x1001xxx"),
  ("DBcc", "0101xxxx11001xxx"),
  ("SBCD", "1000xxx10000xxxx"),
  ("ABCD", "1100xxx10000xxxx"),
  ("EXGw", "1100xxx1000xxxx"),
  ("EXGl", "1100xxx1100xxxx"),
  ("SUBXb", "1001xxx10000xxxx"),
  ("SUBXw", "1001xxx10100xxxx"),
  ("SUBXl", "1001xxx11000xxxx"),
  ("ADDXb", "1101xxx10000xxxx"),
  ("ADDXw", "1101xxx10100xxxx"),
  ("ADDXl", "1101xxx11000xxxx"),
  ("NEGX", "01000000xxxxxxxx"),
  ("MOVEM", "01001x001xxxxxxx"),
  ("BRA", "01100000xxxxxxxx"),
  ("BSR", "01100001xxxxxxxx"),
  ("BTST", "0000xxx100xxxxxx"),
  ("BCHG", "0000xxx101xxxxxx"),
  ("BCLR", "0000xxx110xxxxxx"),
  ("BSET", "0000xxx111xxxxxx"),
  ("LEA", "0100xxx111xxxxxx"),
  ("CHK", "0100xxx110xxxxxx"),
  ("DIVU", "1000xxx011xxxxxx"),
  ("DIVS", "1000xxx111xxxxxx"),
  ("MULU", "1100xxx011xxxxxx"),
  ("MULS", "1100xxx111xxxxxx"),
  ("Scc", "0101xxxx11xxxxxx"),
  ("SUBAw", "1001xxx0x11xxxxx"),
  ("SUBAl", "1001xxx1x11xxxxx"),
  ("CMPAw", "1011xxx0x11xxxxx"),
  ("CMPAl", "1011xxx1x11xxxxx"),
  ("ADDAw", "1101xxx0x11xxxxx"),
  ("ADDAl", "1101xxx1x11xxxxx"),
  ("ASRb", "1110xxx000xx00xxx"),
  ("ASRw", "1110xxx001xx00xxx"),
  ("ASRl", "1110xxx010xx00xxx"),
  ("LSRb", "1110xxx000xx01xxx"),
  ("LSRw", "1110xxx001xx01xxx"),
  ("LSRl", "1110xxx010xx01xxx"),
  ("ROXRb", "1110xxx000xx10xxx"),
  ("ROXRw", "1110xxx001xx10xxx"),
  ("ROXRl", "1110xxx010xx10xxx"),
  ("RORb", "1110xxx000xx11xxx"),
  ("RORw", "1110xxx001xx11xxx"),
  ("RORl", "1110xxx010xx11xxx"),
  ("ASLb", "1110xxx100xx00xxx"),
  ("ASLw", "1110xxx101xx00xxx"),
  ("ASLl", "1110xxx110xx00xxx"),
  ("LSLb", "1110xxx100xx01xxx"),
  ("LSLw", "1110xxx101xx01xxx"),
  ("LSLl", "1110xxx110xx01xxx"),
  ("ROXLb", "1110xxx100xx10xxx"),
  ("ROXLw", "1110xxx101xx10xxx"),
  ("ROXLl", "1110xxx110xx10xxx"),
  ("ROLb", "1110xxx100xx11xxx"),
  ("ROLw", "1110xxx101xx11xxx"),
  ("ROLl", "1110xxx110xx11xxx"),
  ("ADDQb", "0101xxx000xxxxxx"),
  ("ADDQw", "0101xxx001xxxxxx"),
  ("ADDQl", "0101xxx010xxxxxx"),
  ("SUBQb", "0101xxx100xxxxxx"),
  ("SUBQw", "0101xxx101xxxxxx"),
  ("SUBQl", "0101xxx110xxxxxx"),
  ("EORb", "1011xxx100xxxxxx"),
  ("EORw", "1011xxx101xxxxxx"),
  ("EORl", "1011xxx110xxxxxx"),
  ("CMPb", "1011xxx000xxxxxx"),
  ("CMPw", "1011xxx001xxxxxx"),
  ("CMPl", "1011xxx010xxxxxx"),
  ("MOVEAw", "0001xxx001xxxxxx"),
  ("MOVEAl", "0011xxx001xxxxxx"),
  ("MOVEQ", "0111xxx0xxxxxxxx"),
  ("Bcc", "0110xxxxxxxxxxxx"),
  ("ORdnb", "1000xxx000xxxxxx"),
  ("ORdnw", "1000xxx001xxxxxx"),
  ("ORdnl", "1000xxx010xxxxxx"),
  ("OReab", "1000xxx100xxxxxx"),
  ("OReaw", "1000xxx101xxxxxx"),
  ("OReal", "1000xxx110xxxxxx"),
  ("SUBdnb", "1001xxx000xxxxxx"),
  ("SUBdnw", "1001xxx001xxxxxx"),
  ("SUBdnl", "1001xxx010xxxxxx"),
  ("SUBeab", "1001xxx100xxxxxx"),
  ("SUBeaw", "1001xxx101xxxxxx"),
  ("SUBeal", "1001xxx110xxxxxx"),
  ("ANDdnb", "1100xxx000xxxxxx"),
  ("ANDdnw", "1100xxx001xxxxxx"),
  ("ANDdnl", "1100xxx010xxxxxx"),
  ("ANDeab", "1100xxx100xxxxxx"),
  ("ANDeaw", "1100xxx101xxxxxx"),
  ("ANDeal", "1100xxx110xxxxxx"),
  ("ADDdnb", "1101xxx000xxxxxx"),
  ("ADDdnw", "1101xxx001xxxxxx"),
  ("ADDdnl", "1101xxx010xxxxxx"),
  ("ADDeab", "1101xxx100xxxxxx"),
  ("ADDeaw", "1101xxx101xxxxxx"),
  ("ADDeal", "1101xxx110xxxxxx"),
  ("MOVEb", "0001xxxxxxxxxxxx"),
  ("MOVEw", "0011xxxxxxxxxxxx"),
  ("MOVEl", "0010xxxxxxxxxxxx")]

/-- The matchers table built from the opcodes list. -/
def matchers : List (String × Nat × Nat) := buildMatchers opcodes

/-- The function match(word) of the script, over the global matchers table.
Renamed because match is a reserved word here. -/
def matchW (word : Nat) : Option String := matchList matchers word

/-- Hash key of a collapsed leaf at level lvl < 4: the script hashes the
Python string matcher * (4 - lvl) (string repetition), with the string
"None" standing in for an unmatched answer. -/
def leafKey (matcher : Option String) (lvl : Nat) : PVal :=
  match matcher with
  | none => .str (pyRepeat "None" (4 - lvl))
  | some m => .str (pyRepeat m (4 - lvl))

/-- Hash key at level 4 and beyond: the script hashes the match result
itself, so the None object for an unmatched word and the mnemonic string
otherwise. -/
def lvl4Key (matcher : Option String) : PVal :=
  match matcher with
  | none => .pyNone
  | some m => .str m

/-- Loop body of the collapse scan in check(): starting from
matcher = None, walk the completions in increasing order; report not-same
as soon as the previous value is a mnemonic and differs from the current
match result (on break, matcher keeps its previous value). -/
def scanGo (base : Nat) : Nat → Nat → Option String → Bool × Option String
  | _, 0, matcher => (true, matcher)
  | pattern, c + 1, matcher =>
    let matched := matchW (base ||| pattern)
    if matcher ≠ none ∧ matcher ≠ matched then (false, matcher)
    else scanGo base (pattern + 1) c matched

/-- The collapse scan of check() at a node: all 2 ^ (16 - lvl * 4)
completions of the prefix are visited, each producing the word
pfx <<< (16 - lvl * 4) ||| pattern. -/
def scan (pfx lvl : Nat) : Bool × Option String :=
  scanGo (pfx <<< (16 - lvl * 4)) 0 (2 ^ (16 - lvl * 4)) none

/-- Tail of check() at level 4 and beyond: one match evaluation, hash of
the result, registry gate returning zero entries either way (a level-4
node never adds to the entries accumulator). -/
def lvl4Body (pfx : Nat) (luts : List PVal) : Nat × PVal × List PVal :=
  let matcher := matchW pfx
  let fullHash := lvl4Key matcher
  if fullHash ∈ luts then (0, fullHash, luts)
  else (0, fullHash, fullHash :: luts)

/-- Child loop of check() in the branch case: children are the child words
base + i for i = 0..15, visited in order, threading the registry; returns
the summed child entries, the child hashes in order, and the registry. The
recursion over the sixteen children is factored over the function f, which
check instantiates with itself one level deeper. -/
def runKids (f : Nat → List PVal → Nat × PVal × List PVal) (base : Nat) :
    Nat → Nat → List PVal → Nat × List PVal × List PVal
  | _, 0, luts => (0, [], luts)
  | i, n + 1, luts =>
    let r := f (base + i) luts
    let rest := runKids f base (i + 1) n r.2.2
    (r.1 + rest.1, r.2.1 :: rest.2.1, rest.2.2)

/-- Body of check(prefix, lvl), with the recursion depth made structural:
checkAux (4 - lvl) pfx lvl is check(prefix, lvl).  At lvl < 4 the collapse
scan either makes the node a leaf costing (3 - lvl) * 16 entries, or a
branch costing 16 plus its children, whose hash is the tuple of the child
hashes; the registry gate at the end returns 0 entries for an
already-seen hash and otherwise registers the hash and returns the
accumulated entries. -/
def checkAux : Nat → Nat → Nat → List PVal → Nat × PVal × List PVal
  | 0, pfx, _, luts => lvl4Body pfx luts
  | fuel + 1, pfx, lvl, luts =>
    if lvl < 4 then
      match scan pfx lvl with
      | (true, matcher) =>
        let entries := (3 - lvl) * 16
        let fullHash := leafKey matcher lvl
        if fullHash ∈ luts then (0, fullHash, luts)
        else (entries, fullHash, fullHash :: luts)
      | (false, _) =>
        let r := runKids (fun w l => checkAux fuel w (lvl + 1) l) (pfx <<< 4) 0 16 luts
        let fullHash := PVal.tup r.2.1
        if fullHash ∈ r.2.2 then (0, fullHash, r.2.2)
        else (16 + r.1, fullHash, fullHash :: r.2.2)
    else lvl4Body pfx luts

/-- The function check(prefix, lvl) of the script, as a pure function of
the node and the current contents of the module-level set luts, returning
(entries, full_hash, updated luts). -/
def check (pfx lvl : Nat) (luts : List PVal) : Nat × PVal × List PVal :=
  checkAux (4 - lvl) pfx lvl luts

/-- Decoding a word through the hierarchical table whose shape check()
sizes: starting at the root, a collapsed node answers its scan result, a
branch descends into the child selected by the next nibble of the word,
and a level-4 node answers the matcher on its fully-determined prefix. -/
def decodeAux : Nat → Nat → Nat → Nat → Option String
  | 0, pfx, _, _ => matchW pfx
  | fuel + 1, pfx, lvl, w =>
    if lvl < 4 then
      match scan pfx lvl with
      | (true, matcher) => matcher
      | (false, _) =>
        decodeAux fuel ((pfx <<< 4) ||| ((w >>> (12 - 4 * lvl)) &&& 15)) (lvl + 1) w
    else matchW pfx

/-- Full table decode of a word, from the root node. -/
def decodeTable (w : Nat) : Option String := decodeAux 4 0 0 w

/-! ### Spec-side mask definitions

The specification describes required_bits as having a 1 exactly where the
pattern symbol is '1' and care_mask as having a 1 exactly where the pattern
symbol is not 'x'.  The two definitions below spell that out positionally
(the first symbol of the pattern governs the most significant bit); the
claims compare them against the compiled construction. -/

/-- Spec reading of required_bits: a 1 exactly at the bit positions whose
pattern symbol is '1'. -/
def specRequiredBits : List Char → Nat
  | [] => 0
  | c :: cs => (if c = '1' then 2 ^ cs.length else 0) + specRequiredBits cs

/-- Spec reading of care_mask: a 1 exactly at the bit positions whose
pattern symbol is not 'x'. -/
def specCareMask : List Char → Nat
  | [] => 0
  | c :: cs => (if c ≠ 'x' then 2 ^ cs.length else 0) + specCareMask cs

/-- Modelled from the spec: the MalformedPattern validation (a rule is
malformed when its pattern is not exactly 16 symbols or contains a symbol
outside 0, 1, x).  The script contains no corresponding code. -/
def specMalformedPattern (rules : List (String × String)) : Bool :=
  rules.any fun r =>
    r.2.length != 16 ||
      r.2.data.any fun c => decide (c ≠ '0' ∧ c ≠ '1' ∧ c ≠ 'x')

/-- Shifting left one bit and or-ing in a single bit is the same as
doubling and adding. -/
theorem shiftLeft_one_or (x b : Nat) (hb : b ≤ 1) :
    (x <<< 1) ||| b = 2 * x + b := by
  have hx : x <<< 1 = 2 * x := by
    rw [Nat.shiftLeft_succ, Nat.shiftLeft_zero]
  rw [hx]
  interval_cases b
  · simp
  · apply Nat.eq_of_testBit_eq
    intro i
    cases i with
    | zero =>
      simp only [Nat.testBit_or, Nat.testBit_zero]
      have h1 : 2 * x % 2 = 0 := by omega
      have h2 : (2 * x + 1) % 2 = 1 := by omega
      simp [h1, h2]
    | succ j =>
      have h1 : 2 * x / 2 = x := by omega
      have h2 : (2 * x + 1) / 2 = x := by omega
      have h3 : (1 : Nat) / 2 = 0 := by omega
      rw [Nat.testBit_or]
      simp only [Nat.testBit_succ, h1, h2, h3]
      simp

/-- The fold of the matcher construction computes the spec masks, for any
starting accumulator. -/
theorem compileBits_foldl (enc : List Char) :
    ∀ s a : Nat,
      enc.foldl
        (fun p c =>
          ((p.1 <<< 1) ||| (if c = '1' then 1 else 0),
           (p.2 <<< 1) ||| (if c ≠ 'x' then 1 else 0)))
        (s, a) =
      (s * 2 ^ enc.length + specRequiredBits enc,
       a * 2 ^ enc.length + specCareMask enc) := by
  induction enc with
  | nil => intro s a; simp [specRequiredBits, specCareMask]
  | cons c cs ih =>
    intro s a
    rw [List.foldl_cons,
      shiftLeft_one_or s _ (by split <;> omega),
      shiftLeft_one_or a _ (by split <;> omega), ih]
    refine Prod.ext ?_ ?_ <;>
      simp only [specRequiredBits, specCareMask, List.length_cons, pow_succ] <;>
      split <;> ring

/-- The compiled pair of a pattern is exactly (required_bits, care_mask)
in the spec reading. -/
theorem compileBits_eq (enc : List Char) :
    compileBits enc = (specRequiredBits enc, specCareMask enc) := by
  rw [compileBits, compileBits_foldl]
  simp

/-- Both spec masks are below 2 to the pattern length. -/
theorem specMasks_lt (enc : List Char) :
    specRequiredBits enc < 2 ^ enc.length ∧
      specCareMask enc < 2 ^ enc.length := by
  induction enc with
  | nil => simp [specRequiredBits, specCareMask]
  | cons c cs ih =>
    simp only [specRequiredBits, specCareMask, List.length_cons, pow_succ]
    constructor <;> split <;> omega

/-- Bit i of the spec masks reads off the pattern symbol at position
length - 1 - i. -/
theorem specMasks_testBit (enc : List Char) (i : Nat) (hi : i < enc.length) :
    (specRequiredBits enc).testBit i
        = decide (enc.getD (enc.length - 1 - i) '0' = '1') ∧
      (specCareMask enc).testBit i
        = decide (enc.getD (enc.length - 1 - i) '0' ≠ 'x') := by
  induction enc with
  | nil => simp at hi
  | cons c cs ih =>
    have e1 : specRequiredBits (c :: cs)
        = 2 ^ cs.length * (if c = '1' then 1 else 0) + specRequiredBits cs := by
      simp only [specRequiredBits]; split <;> ring
    have e2 : specCareMask (c :: cs)
        = 2 ^ cs.length * (if c ≠ 'x' then 1 else 0) + specCareMask cs := by
      simp only [specCareMask]; split <;> ring
    have h1 := Nat.testBit_mul_pow_two_add (if c = '1' then (1:Nat) else 0)
      (specMasks_lt cs).1 i
    have h2 := Nat.testBit_mul_pow_two_add (if c ≠ 'x' then (1:Nat) else 0)
      (specMasks_lt cs).2 i
    rcases Nat.lt_or_ge i cs.length with hlt | hge
    · constructor
      · rw [e1, h1, if_pos hlt, (ih hlt).1]
        congr 2
        simp only [List.length_cons]
        rw [show cs.length + 1 - 1 - i = (cs.length - 1 - i) + 1 from by omega,
          List.getD_cons_succ]
      · rw [e2, h2, if_pos hlt, (ih hlt).2]
        congr 2
        simp only [List.length_cons]
        rw [show cs.length + 1 - 1 - i = (cs.length - 1 - i) + 1 from by omega,
          List.getD_cons_succ]
    · have hieq : i = cs.length := by
        simp only [List.length_cons] at hi; omega
      subst hieq
      constructor
      · rw [e1, h1, if_neg (by omega), Nat.sub_self]
        simp only [List.length_cons,
          show cs.length + 1 - 1 - cs.length = 0 from by omega,
          List.getD_cons_zero]
        split <;> simp_all
      · rw [e2, h2, if_neg (by omega), Nat.sub_self]
        simp only [List.length_cons,
          show cs.length + 1 - 1 - cs.length = 0 from by omega,
          List.getD_cons_zero]
        split <;> simp_all

/-! ### First-match characterization of the scan -/

/-- The first-match scan is find? over the rule list, projected to the
mnemonic. -/
theorem matchList_eq_find (l : List (String × Nat × Nat)) (word : Nat) :
    matchList l word
      = (l.find? fun r => (word &&& r.2.2) ^^^ r.2.1 == 0).map Prod.fst := by
  induction l with
  | nil => rfl
  | cons r rs ih =>
    obtain ⟨nm, st, an⟩ := r
    cases h : (word &&& an) ^^^ st == 0 <;>
      simp [matchList, List.find?_cons, h, ih]

/-- A successful match exhibits a rule of the table with that mnemonic
whose masked comparison holds. -/
theorem matchList_some (l : List (String × Nat × Nat)) (word : Nat)
    (m : String) (h : matchList l word = some m) :
    ∃ st an, (m, st, an) ∈ l ∧ (word &&& an) ^^^ st = 0 := by
  induction l with
  | nil => simp [matchList] at h
  | cons r rs ih =>
    obtain ⟨nm, st, an⟩ := r
    simp only [matchList] at h
    split at h
    case isTrue hc =>
      obtain rfl : nm = m := by injection h
      exact ⟨st, an, List.mem_cons_self _ _, by
        have := of_decide_eq_true (by simpa using hc)
        simpa using hc⟩
    case isFalse hc =>
      obtain ⟨st2, an2, hmem, heq⟩ := ih h
      exact ⟨st2, an2, List.mem_cons_of_mem _ hmem, heq⟩

/-- Equality test via xor against zero is the plain equality test. -/
theorem xor_beq_zero_eq (a b : Nat) : (a ^^^ b == 0) = (a == b) := by
  rw [Bool.eq_iff_iff]
  simp [Nat.xor_eq_zero]

/-- C1.  The matcher scan returns the mnemonic of the first rule in table
order whose masked comparison (word and care_mask) = required_bits holds,
where required_bits has a 1 exactly where the pattern symbol is '1' and
care_mask has a 1 exactly where the pattern symbol is not 'x' (read off by
testBit, the first symbol governing bit 15 of a 16-symbol pattern); none is
returned when no rule matches (find? yields none), and with an earlier rule
R1 and a later rule R2 both matching word, the two-rule matcher answers
R1. -/
theorem c1_first_match_semantics (rules : List (String × String)) (word : Nat)
    (_hword : word ≤ 65535) :
    matchList (buildMatchers rules) word
        = (rules.find? fun r =>
            word &&& specCareMask r.2.data == specRequiredBits r.2.data).map
            Prod.fst
    ∧ (∀ enc : List Char, enc.length = 16 → ∀ i : Nat, i < 16 →
        (compileBits enc).1.testBit i = decide (enc.getD (15 - i) '0' = '1') ∧
        (compileBits enc).2.testBit i = decide (enc.getD (15 - i) '0' ≠ 'x'))
    ∧ (∀ R1 R2 : String × String,
        word &&& specCareMask R1.2.data = specRequiredBits R1.2.data →
        word &&& specCareMask R2.2.data = specRequiredBits R2.2.data →
        matchList (buildMatchers [R1, R2]) word = some R1.1) := by
  refine ⟨?_, ?_, ?_⟩
  · rw [matchList_eq_find, buildMatchers, List.find?_map]
    have hp : (fun r : String × Nat × Nat => (word &&& r.2.2) ^^^ r.2.1 == 0) ∘
          (fun r : String × String => (r.1, compileBits r.2.data))
        = fun r : String × String =>
            word &&& specCareMask r.2.data == specRequiredBits r.2.data := by
      funext r
      simp only [Function.comp_apply, compileBits_eq, xor_beq_zero_eq]
    rw [hp, Option.map_map]
    rfl
  · intro enc hlen i hi
    have h := specMasks_testBit enc i (by omega)
    have hidx : enc.length - 1 - i = 15 - i := by omega
    rw [compileBits_eq]
    exact ⟨by rw [h.1, hidx], by rw [h.2, hidx]⟩
  · intro R1 R2 h1 _h2
    simp only [buildMatchers, List.map_cons, List.map_nil, compileBits_eq]
    simp [matchList, xor_beq_zero_eq, h1]

/-- Witness for C1, on the overlap example of the specification: rules A
and B both match the word 0xFF00 and the two-rule matcher answers the
earlier rule A. -/
theorem c1_first_match_semantics_witness :
    (0xFF00 : Nat) ≤ 65535 ∧
      matchList (buildMatchers
        [("A", "1xxxxxxxxxxxxxxx"), ("B", "11111111xxxxxxxx")]) 0xFF00
        = some "A" :=
  ⟨by decide,
    (c1_first_match_semantics
        [("A", "1xxxxxxxxxxxxxxx"), ("B", "11111111xxxxxxxx")] 0xFF00
        (by decide)).2.2
      ("A", "1xxxxxxxxxxxxxxx") ("B", "11111111xxxxxxxx")
      (by decide) (by decide)⟩

/-! ### C9: wildcard semantics -/

/-- An all-x pattern compiles to zero masks. -/
theorem allx_masks (enc : List Char) (h : ∀ c ∈ enc, c = 'x') :
    specRequiredBits enc = 0 ∧ specCareMask enc = 0 := by
  induction enc with
  | nil => simp [specRequiredBits, specCareMask]
  | cons c cs ih =>
    have hc : c = 'x' := h c (List.mem_cons_self _ _)
    have ihx := ih fun d hd => h d (List.mem_cons_of_mem _ hd)
    simp [specRequiredBits, specCareMask, hc, ihx.1, ihx.2]

/-- A pattern with no x compiles to a full care mask. -/
theorem nox_care (enc : List Char) (h : ∀ c ∈ enc, c ≠ 'x') :
    specCareMask enc = 2 ^ enc.length - 1 := by
  induction enc with
  | nil => simp [specCareMask]
  | cons c cs ih =>
    have hc : c ≠ 'x' := h c (List.mem_cons_self _ _)
    have ihx := ih fun d hd => h d (List.mem_cons_of_mem _ hd)
    have hpos : 0 < 2 ^ cs.length := Nat.pos_pow_of_pos _ (by omega)
    simp only [specCareMask, if_pos hc, ihx, List.length_cons, pow_succ]
    omega

/-- C9.  A rule whose 16-symbol pattern is all x matches every word 0 to
65535, and a rule whose 16-symbol pattern contains no x matches exactly one
word in 0 to 65535. -/
theorem c9_wildcard_semantics :
    (∀ (m : String) (enc : List Char), enc.length = 16 →
        (∀ c ∈ enc, c = 'x') →
        ∀ w : Nat, w ≤ 65535 →
          matchList (buildMatchers [(m, String.mk enc)]) w = some m)
    ∧ (∀ (m : String) (enc : List Char), enc.length = 16 →
        (∀ c ∈ enc, c ≠ 'x') →
        ∃! w : Nat, w ≤ 65535 ∧
          matchList (buildMatchers [(m, String.mk enc)]) w = some m) := by
  constructor
  · intro m enc _hlen hx w _hw
    obtain ⟨hr, hc⟩ := allx_masks enc hx
    simp only [buildMatchers, List.map_cons, List.map_nil, compileBits_eq]
    simp [matchList, hr, hc]
  · intro m enc hlen hnx
    have hcm : specCareMask enc = 2 ^ 16 - 1 := by
      rw [nox_care enc hnx, hlen]
    have hreq_lt : specRequiredBits enc < 2 ^ 16 := by
      have := (specMasks_lt enc).1
      rwa [hlen] at this
    have hmatches : ∀ y : Nat, y ≤ 65535 →
        (matchList (buildMatchers [(m, String.mk enc)]) y = some m
          ↔ y = specRequiredBits enc) := by
      intro y hy
      have hylt : y < 2 ^ 16 := by
        have : (2 : Nat) ^ 16 = 65536 := by norm_num
        omega
      have hand : y &&& specCareMask enc = y := by
        rw [hcm]
        exact Nat.and_pow_two_sub_one_of_lt_two_pow hylt
      simp only [buildMatchers, List.map_cons, List.map_nil, compileBits_eq]
      simp only [matchList, hand]
      constructor
      · intro h
        split at h
        case isTrue hc => exact Nat.xor_eq_zero.mp (by simpa using hc)
        case isFalse hc => simp [matchList] at h
      · intro h
        subst h
        simp
    refine ⟨specRequiredBits enc, ⟨by omega, ?_⟩, ?_⟩
    · exact (hmatches _ (by omega)).mpr rfl
    · intro y ⟨hy, hmy⟩
      exact (hmatches y hy).mp hmy

/-- Witness for C9: the all-x rule matches the word 0, and the NOP pattern
(no x) matches exactly one word. -/
theorem c9_wildcard_semantics_witness :
    matchList (buildMatchers [("ANY", "xxxxxxxxxxxxxxxx")]) 0 = some "ANY"
    ∧ ∃! w : Nat, w ≤ 65535 ∧
        matchList (buildMatchers [("T", "0100111001110001")]) w = some "T" :=
  ⟨c9_wildcard_semantics.1 "ANY" "xxxxxxxxxxxxxxxx".data (by decide)
      (by decide) 0 (by decide),
    c9_wildcard_semantics.2 "T" "0100111001110001".data (by decide)
      (by decide)⟩

/-! ### C4: the 17-symbol shift/rotate register rules are dead -/

/-- The 24 size-specific shift/rotate register mnemonics whose patterns in
the opcodes table are 17 symbols long. -/
def deadShiftRules : List String :=
  ["ASRb", "ASRw", "ASRl", "LSRb", "LSRw", "LSRl", "ROXRb", "ROXRw", "ROXRl",
   "RORb", "RORw", "RORl", "ASLb", "ASLw", "ASLl", "LSLb", "LSLw", "LSLl",
   "ROXLb", "ROXLw", "ROXLl", "ROLb", "ROLw", "ROLl"]

/-- C4.  No 16-bit word ever decodes to one of the 24 size-specific
shift/rotate register rules: their 17-symbol patterns give required_bits
with bit 16 set, which (word and any_bits) can never reproduce for a word
below 2 to the 16. -/
theorem c4_dead_shift_rules (w : Nat) (hw : w ≤ 65535) (m : String)
    (hm : m ∈ deadShiftRules) : matchW w ≠ some m := by
  intro hmatch
  obtain ⟨st, an, hmem, heq⟩ := matchList_some _ _ _ hmatch
  have hfact : ∀ p ∈ matchers, p.1 ∈ deadShiftRules → p.2.1.testBit 16 = true := by
    decide
  have h16 : st.testBit 16 = true := hfact (m, st, an) hmem hm
  have hge : 2 ^ 16 ≤ st := Nat.testBit_implies_ge h16
  have hst : w &&& an = st := Nat.xor_eq_zero.mp heq
  have hle : w &&& an ≤ w := Nat.and_le_left
  have : (2 : Nat) ^ 16 = 65536 := by norm_num
  omega

/-- Witness for C4 at the word 0xE000 and the rule ASRb. -/
theorem c4_dead_shift_rules_witness :
    (0xE000 : Nat) ≤ 65535 ∧ "ASRb" ∈ deadShiftRules ∧
      matchW 0xE000 ≠ some "ASRb" :=
  ⟨by decide, by decide, c4_dead_shift_rules 0xE000 (by decide) "ASRb" (by decide)⟩

/-! ### C10: short patterns are right-aligned, upper bits unconstrained -/

/-- C10.  The 15-symbol EXG rules of the shipped table compile to care
masks below 2 to the 15, so bit 15 of the word is unconstrained; in
particular the matcher answers EXGw for 0x6080 and EXGl for 0x60C0, two
words with bit 15 clear, even though the later BRA rule (which appears
after EXGw in the table) also matches 0x6080. -/
theorem c10_exg_right_aligned :
    ("EXGw", "1100xxx1000xxxx") ∈ opcodes
    ∧ ("EXGl", "1100xxx1100xxxx") ∈ opcodes
    ∧ ("BRA", "01100000xxxxxxxx") ∈ opcodes
    ∧ "1100xxx1000xxxx".length = 15
    ∧ "1100xxx1100xxxx".length = 15
    ∧ (compileBits "1100xxx1000xxxx".data).2 < 2 ^ 15
    ∧ (compileBits "1100xxx1100xxxx".data).2 < 2 ^ 15
    ∧ Nat.testBit 0x6080 15 = false
    ∧ Nat.testBit 0x60C0 15 = false
    ∧ matchW 0x6080 = some "EXGw"
    ∧ matchW 0x60C0 = some "EXGl"
    ∧ ((0x6080 &&& (compileBits "01100000xxxxxxxx".data).2) ^^^
        (compileBits "01100000xxxxxxxx".data).1 = 0)
    ∧ opcodes.findIdx (fun r => r.1 == "EXGw")
        < opcodes.findIdx (fun r => r.1 == "BRA") := by
  decide

/-! ### C3: the construction performs no validation -/

/-- Counterexample to C3: the spec validator flags the 15-symbol EXGw
pattern and a pattern containing the symbol y, yet the construction
embedded from the script accepts both, produces matcher triples, and the
resulting matchers match words; there is no failure path. -/
theorem c3_counterexample :
    specMalformedPattern [("EXGw", "1100xxx1000xxxx")] = true
    ∧ specMalformedPattern [("Y", "0100111001110y01")] = true
    ∧ buildMatchers [("EXGw", "1100xxx1000xxxx")]
        = [("EXGw", 0x6080, 0x78F0)]
    ∧ matchList (buildMatchers [("EXGw", "1100xxx1000xxxx")]) 0x6080
        = some "EXGw"
    ∧ buildMatchers [("Y", "0100111001110y01")]
        = [("Y", 0x4E71, 0xFFFF)]
    ∧ matchList (buildMatchers [("Y", "0100111001110y01")]) 0x4E71
        = some "Y" := by
  decide

/-- Any symbol other than '1' and 'x' contributes nothing to required_bits
and a 1 to the care mask, exactly like '0'. -/
theorem specMasks_normalize (enc : List Char) :
    specRequiredBits (enc.map fun c => if c = '1' ∨ c = 'x' then c else '0')
        = specRequiredBits enc
    ∧ specCareMask (enc.map fun c => if c = '1' ∨ c = 'x' then c else '0')
        = specCareMask enc := by
  induction enc with
  | nil => simp [specRequiredBits, specCareMask]
  | cons c cs ih =>
    have h1 : ((if c = '1' ∨ c = 'x' then c else '0') = '1') ↔ c = '1' := by
      split
      · simp
      · constructor
        · intro h; simp at h
        · intro h; tauto
    have h2 : ((if c = '1' ∨ c = 'x' then c else '0') ≠ 'x') ↔ c ≠ 'x' := by
      split
      case isTrue h =>
        rcases h with h | h <;> simp [h]
      case isFalse h => simp; tauto
    simp only [List.map_cons, specRequiredBits, specCareMask,
      List.length_map, ih.1, ih.2]
    constructor
    · by_cases hc : c = '1'
      · rw [if_pos (h1.mpr hc), if_pos hc]
      · rw [if_neg (fun h => hc (h1.mp h)), if_neg hc]
    · by_cases hc : c ≠ 'x'
      · rw [if_pos (h2.mpr hc), if_pos hc]
      · rw [if_neg (fun h => hc (h2.mp h)), if_neg hc]

/-- C3 amended: building the matcher from a rule list never fails and
performs no validation: every rule yields exactly one matcher triple
carrying its mnemonic, whatever the length or symbols of its pattern, and
a symbol outside 1 and x is treated exactly like the fixed symbol 0. -/
theorem c3_amended :
    (∀ rules : List (String × String),
        (buildMatchers rules).map Prod.fst = rules.map Prod.fst)
    ∧ (∀ enc : List Char,
        compileBits (enc.map fun c => if c = '1' ∨ c = 'x' then c else '0')
          = compileBits enc) := by
  constructor
  · intro rules
    rw [buildMatchers, List.map_map]
    rfl
  · intro enc
    rw [compileBits_eq, compileBits_eq,
      (specMasks_normalize enc).1, (specMasks_normalize enc).2]

/-! ### Analysis layer for check(): node keys, post-order costs, dedup -/

mutual

/-- Depth of a hash key: a tuple key is one deeper than its deepest
element, atomic keys have depth zero. -/
def PVal.depth : PVal → Nat
  | .tup l => PVal.depthList l + 1
  | _ => 0

def PVal.depthList : List PVal → Nat
  | [] => 0
  | k :: ks => max (PVal.depth k) (PVal.depthList ks)

end

/-- An element of a list is at most as deep as the list. -/
theorem PVal.depth_le_depthList {k : PVal} :
    ∀ {ks : List PVal}, k ∈ ks → PVal.depth k ≤ PVal.depthList ks := by
  intro ks hk
  induction ks with
  | nil => cases hk
  | cons a as ih =>
    rcases List.mem_cons.mp hk with rfl | hmem
    · simp [PVal.depthList]
    · calc PVal.depth k ≤ PVal.depthList as := ih hmem
        _ ≤ _ := by simp [PVal.depthList]

/-- An element of a tuple key is strictly shallower than the tuple. -/
theorem PVal.depth_lt_tup {k : PVal} {ks : List PVal} (hk : k ∈ ks) :
    PVal.depth k < PVal.depth (.tup ks) := by
  have := PVal.depth_le_depthList hk
  simp only [PVal.depth]
  omega

/-- Hash key of the node at (pfx, lvl), read off the scans alone: it does
not depend on the registry. -/
def nodeKeyAux : Nat → Nat → Nat → PVal
  | 0, pfx, _ => lvl4Key (matchW pfx)
  | fuel + 1, pfx, lvl =>
    if lvl < 4 then
      match scan pfx lvl with
      | (true, matcher) => leafKey matcher lvl
      | (false, _) =>
        .tup ((List.range' 0 16).map fun i =>
          nodeKeyAux fuel ((pfx <<< 4) + i) (lvl + 1))
    else lvl4Key (matchW pfx)

/-- Hash key of the node at (pfx, lvl). -/
def nodeKey (pfx lvl : Nat) : PVal := nodeKeyAux (4 - lvl) pfx lvl

/-- Post-order traversal of the subtree at (pfx, lvl), listing each node
as (local cost, hash key): a collapsed node at lvl < 4 costs
(3 - lvl) * 16, a level-4 node costs 0, and a branch costs 16 and is
listed after its sixteen children. -/
def postNodesAux : Nat → Nat → Nat → List (Nat × PVal)
  | 0, pfx, _ => [(0, lvl4Key (matchW pfx))]
  | fuel + 1, pfx, lvl =>
    if lvl < 4 then
      match scan pfx lvl with
      | (true, matcher) => [((3 - lvl) * 16, leafKey matcher lvl)]
      | (false, _) =>
        ((List.range' 0 16).flatMap fun i =>
          postNodesAux fuel ((pfx <<< 4) + i) (lvl + 1))
          ++ [(16, .tup ((List.range' 0 16).map fun i =>
                nodeKeyAux fuel ((pfx <<< 4) + i) (lvl + 1)))]
    else [(0, lvl4Key (matchW pfx))]

/-- Post-order cost/key list of the subtree at (pfx, lvl). -/
def postNodes (pfx lvl : Nat) : List (Nat × PVal) := postNodesAux (4 - lvl) pfx lvl

/-- Accumulate a (cost, key) list against a registry, counting only keys
not yet registered and registering them as encountered. -/
def fsSum : List (Nat × PVal) → List PVal → Nat × List PVal
  | [], s => (0, s)
  | (c, k) :: rest, s =>
    if k ∈ s then fsSum rest s
    else
      let r := fsSum rest (k :: s)
      (c + r.1, r.2)

/-- A registry is closed when the elements of every registered tuple key
are themselves registered. -/
def ClosedReg (s : List PVal) : Prop :=
  ∀ ks : List PVal, PVal.tup ks ∈ s → ∀ k ∈ ks, k ∈ s

/-- The empty registry is closed. -/
theorem closedReg_nil : ClosedReg [] := by
  intro ks hks
  cases hks

/-- Registry state before the i-th child when a child-processing function
f is threaded across children base + 0, base + 1, ... -/
def kidStates (f : Nat → List PVal → Nat × PVal × List PVal) (base : Nat)
    (s : List PVal) : Nat → List PVal
  | 0 => s
  | i + 1 => (f (base + i) (kidStates f base s i)).2.2

/-- Unfolding check at a level below 4: the collapse scan decides between
the leaf gate and the branch over sixteen children at level + 1. -/
theorem check_unfold (pfx lvl : Nat) (s : List PVal) (h : lvl < 4) :
    check pfx lvl s =
      match scan pfx lvl with
      | (true, matcher) =>
        if leafKey matcher lvl ∈ s then (0, leafKey matcher lvl, s)
        else ((3 - lvl) * 16, leafKey matcher lvl, leafKey matcher lvl :: s)
      | (false, _) =>
        let r := runKids (fun w l => check w (lvl + 1) l) (pfx <<< 4) 0 16 s
        if PVal.tup r.2.1 ∈ r.2.2 then (0, PVal.tup r.2.1, r.2.2)
        else (16 + r.1, PVal.tup r.2.1, PVal.tup r.2.1 :: r.2.2) := by
  have h4 : 4 - lvl = (4 - (lvl + 1)) + 1 := by omega
  rw [check, h4, checkAux, if_pos h]
  rfl

/-- Unfolding check at level 4 and beyond. -/
theorem check_eq_lvl4 (pfx lvl : Nat) (s : List PVal) (h : 4 ≤ lvl) :
    check pfx lvl s = lvl4Body pfx s := by
  have h4 : 4 - lvl = 0 := by omega
  rw [check, h4, checkAux]

/-- The keys collected by runKids are determined per child, whenever the
child function reports keys that way. -/
theorem runKids_keys (f : Nat → List PVal → Nat × PVal × List PVal)
    (base : Nat) (keyOf : Nat → PVal)
    (hf : ∀ w l, (f w l).2.1 = keyOf w) :
    ∀ n i luts, (runKids f base i n luts).2.1
      = (List.range' i n).map fun j => keyOf (base + j) := by
  intro n
  induction n with
  | zero => intro i luts; simp [runKids]
  | succ n ih =>
    intro i luts
    rw [List.range'_succ]
    simp only [runKids, List.map_cons, hf, ih]

/-- The registry only grows through runKids when it only grows through the
child function. -/
theorem runKids_mono (f : Nat → List PVal → Nat × PVal × List PVal)
    (base : Nat) (hf : ∀ w l, ∀ k ∈ l, k ∈ (f w l).2.2) :
    ∀ n i luts, ∀ k ∈ luts, k ∈ (runKids f base i n luts).2.2 := by
  intro n
  induction n with
  | zero => intro i luts k hk; simpa [runKids] using hk
  | succ n ih =>
    intro i luts k hk
    simp only [runKids]
    exact ih (i + 1) _ k (hf _ _ k hk)

/-- Everything in the registry produced by runKids either satisfies the
per-child bound or was in the input registry. -/
theorem runKids_out_subset (f : Nat → List PVal → Nat × PVal × List PVal)
    (base : Nat) (P : Nat → PVal → Prop)
    (hf : ∀ w l k, k ∈ (f w l).2.2 → P w k ∨ k ∈ l) :
    ∀ n i luts k, k ∈ (runKids f base i n luts).2.2 →
      (∃ j ∈ List.range' i n, P (base + j) k) ∨ k ∈ luts := by
  intro n
  induction n with
  | zero => intro i luts k hk; right; simpa [runKids] using hk
  | succ n ih =>
    intro i luts k hk
    simp only [runKids] at hk
    rcases ih (i + 1) _ k hk with ⟨j, hj, hP⟩ | hmem
    · exact Or.inl ⟨j, by rw [List.range'_succ]; exact List.mem_cons_of_mem _ hj, hP⟩
    · rcases hf _ _ k hmem with hP | hl
      · exact Or.inl ⟨i, by rw [List.range'_succ]; exact List.mem_cons_self _ _, hP⟩
      · exact Or.inr hl

/-- The hash key of check at a node does not depend on the registry. -/
theorem checkAux_key : ∀ (fuel pfx lvl : Nat) (s : List PVal),
    (checkAux fuel pfx lvl s).2.1 = nodeKeyAux fuel pfx lvl := by
  intro fuel
  induction fuel with
  | zero =>
    intro pfx lvl s
    simp only [checkAux, nodeKeyAux, lvl4Body]
    split <;> rfl
  | succ fuel ih =>
    intro pfx lvl s
    by_cases h4 : lvl < 4
    · rcases hscan : scan pfx lvl with ⟨same, matcher⟩
      cases same
      · simp only [checkAux, nodeKeyAux, if_pos h4, hscan]
        rw [runKids_keys _ _ _ (fun w l => ih w (lvl + 1) l)]
        split <;> rfl
      · simp only [checkAux, nodeKeyAux, if_pos h4, hscan]
        split <;> rfl
    · simp only [checkAux, nodeKeyAux, if_neg h4, lvl4Body]
      split <;> rfl

/-- The registry only grows through check. -/
theorem checkAux_mono : ∀ (fuel pfx lvl : Nat) (s : List PVal),
    ∀ k ∈ s, k ∈ (checkAux fuel pfx lvl s).2.2 := by
  intro fuel
  induction fuel with
  | zero =>
    intro pfx lvl s k hk
    simp only [checkAux, lvl4Body]
    split
    · exact hk
    · exact List.mem_cons_of_mem _ hk
  | succ fuel ih =>
    intro pfx lvl s k hk
    by_cases h4 : lvl < 4
    · rcases hscan : scan pfx lvl with ⟨same, matcher⟩
      cases same
      · simp only [checkAux, if_pos h4, hscan]
        have hkids := runKids_mono _ (pfx <<< 4)
          (fun w l => ih w (lvl + 1) l) 16 0 s k hk
        split
        · exact hkids
        · exact List.mem_cons_of_mem _ hkids
      · simp only [checkAux, if_pos h4, hscan]
        split
        · exact hk
        · exact List.mem_cons_of_mem _ hk
    · simp only [checkAux, if_neg h4, lvl4Body]
      split
      · exact hk
      · exact List.mem_cons_of_mem _ hk

/-- Anything covered by a per-child membership property ends up in the
registry produced by runKids, when it does per child and the child
function never drops registry entries. -/
theorem runKids_mem_out (f : Nat → List PVal → Nat × PVal × List PVal)
    (base : Nat) (Q : Nat → PVal → Prop)
    (hf_in : ∀ w l k, Q w k → k ∈ (f w l).2.2)
    (hf_mono : ∀ w l, ∀ k ∈ l, k ∈ (f w l).2.2) :
    ∀ n i luts k, (∃ j ∈ List.range' i n, Q (base + j) k) →
      k ∈ (runKids f base i n luts).2.2 := by
  intro n
  induction n with
  | zero =>
    intro i luts k hk
    obtain ⟨j, hj, _⟩ := hk
    simp at hj
  | succ n ih =>
    intro i luts k hk
    obtain ⟨j, hj, hQ⟩ := hk
    rw [List.range'_succ] at hj
    simp only [runKids]
    rcases List.mem_cons.mp hj with rfl | hj2
    · exact runKids_mono f base (fun w l => hf_mono w l) n (j + 1) _ k
        (hf_in _ _ k hQ)
    · exact ih (i + 1) _ k ⟨j, hj2, hQ⟩

/-- The key of a node is listed in its post-order traversal. -/
theorem key_mem_post : ∀ (fuel pfx lvl : Nat),
    nodeKeyAux fuel pfx lvl ∈ (postNodesAux fuel pfx lvl).map Prod.snd := by
  intro fuel pfx lvl
  cases fuel with
  | zero => simp [nodeKeyAux, postNodesAux]
  | succ fuel =>
    by_cases h4 : lvl < 4
    · rcases hscan : scan pfx lvl with ⟨same, matcher⟩
      cases same <;> simp [nodeKeyAux, postNodesAux, h4, hscan]
    · simp [nodeKeyAux, postNodesAux, h4]

/-- Every key of the post-order traversal of a node ends up in the
registry produced by check on that node. -/
theorem checkAux_post_in_out : ∀ (fuel pfx lvl : Nat) (s : List PVal),
    ∀ k ∈ (postNodesAux fuel pfx lvl).map Prod.snd,
      k ∈ (checkAux fuel pfx lvl s).2.2 := by
  intro fuel
  induction fuel with
  | zero =>
    intro pfx lvl s k hk
    simp only [postNodesAux, List.map_cons, List.map_nil,
      List.mem_singleton] at hk
    subst hk
    simp only [checkAux, lvl4Body]
    split
    next h => exact h
    next => exact List.mem_cons_self _ _
  | succ fuel ih =>
    intro pfx lvl s k hk
    by_cases h4 : lvl < 4
    · rcases hscan : scan pfx lvl with ⟨same, matcher⟩
      cases same
      · -- branch node
        simp only [postNodesAux, h4, if_true, hscan, List.map_append,
          List.mem_append, List.map_cons, List.map_nil,
          List.mem_singleton] at hk
        simp only [checkAux, if_pos h4, hscan]
        have hkeys : (runKids (fun w l => checkAux fuel w (lvl + 1) l)
            (pfx <<< 4) 0 16 s).2.1
            = (List.range' 0 16).map fun j =>
                nodeKeyAux fuel ((pfx <<< 4) + j) (lvl + 1) :=
          runKids_keys _ _ _ (fun w l => checkAux_key fuel w (lvl + 1) l) 16 0 s
        rcases hk with hkids | hlast
        · -- key of a descendant of some child
          have : k ∈ (runKids (fun w l => checkAux fuel w (lvl + 1) l)
              (pfx <<< 4) 0 16 s).2.2 := by
            apply runKids_mem_out _ _
              (fun w k => k ∈ (postNodesAux fuel w (lvl + 1)).map Prod.snd)
              (fun w l k hq => ih w (lvl + 1) l k hq)
              (fun w l => checkAux_mono fuel w (lvl + 1) l)
            simp only [List.mem_map, List.mem_flatMap] at hkids
            obtain ⟨p, ⟨j, hj, hp⟩, hps⟩ := hkids
            exact ⟨j, hj, by simp only [List.mem_map]; exact ⟨p, hp, hps⟩⟩
          split
          · exact this
          · exact List.mem_cons_of_mem _ this
        · -- the branch key itself
          subst hlast
          rw [← hkeys]
          split
          next h => exact h
          next => exact List.mem_cons_self _ _
      · -- collapsed leaf
        simp only [postNodesAux, h4, if_true, hscan, List.map_cons,
          List.map_nil, List.mem_singleton] at hk
        subst hk
        simp only [checkAux, if_pos h4, hscan]
        split
        next h => exact h
        next => exact List.mem_cons_self _ _
    · simp only [postNodesAux, h4, if_false, List.map_cons, List.map_nil,
        List.mem_singleton] at hk
      subst hk
      simp only [checkAux, if_neg h4, lvl4Body]
      split
      next h => exact h
      next => exact List.mem_cons_self _ _

/-- When every key of the subtree is already registered, check reports
zero entries. -/
theorem checkAux_zero_of_all_seen : ∀ (fuel pfx lvl : Nat) (s : List PVal),
    (∀ k ∈ (postNodesAux fuel pfx lvl).map Prod.snd, k ∈ s) →
    (checkAux fuel pfx lvl s).1 = 0 := by
  intro fuel
  induction fuel with
  | zero =>
    intro pfx lvl s _
    simp only [checkAux, lvl4Body]
    split <;> rfl
  | succ fuel ih =>
    intro pfx lvl s hall
    by_cases h4 : lvl < 4
    · rcases hscan : scan pfx lvl with ⟨same, matcher⟩
      cases same
      · -- branch: in particular the branch tuple itself is registered, so
        -- the final gate returns zero entries whatever the children said
        have htup_s : PVal.tup ((List.range' 0 16).map fun i =>
            nodeKeyAux fuel ((pfx <<< 4) + i) (lvl + 1)) ∈ s := by
          apply hall
          simp [postNodesAux, h4, hscan]
        simp only [checkAux, if_pos h4, hscan]
        have hkeys : (runKids (fun w l => checkAux fuel w (lvl + 1) l)
            (pfx <<< 4) 0 16 s).2.1
            = (List.range' 0 16).map fun j =>
                nodeKeyAux fuel ((pfx <<< 4) + j) (lvl + 1) :=
          runKids_keys _ _ _ (fun w l => checkAux_key fuel w (lvl + 1) l) 16 0 s
        rw [hkeys,
          if_pos (runKids_mono _ _ (fun w l => checkAux_mono fuel w (lvl + 1) l)
            16 0 s _ htup_s)]
      · have hleaf_s : leafKey matcher lvl ∈ s := by
          apply hall
          simp [postNodesAux, h4, hscan]
        simp only [checkAux, if_pos h4, hscan]
        rw [if_pos hleaf_s]
    · simp only [checkAux, if_neg h4, lvl4Body]
      split <;> rfl

/-! ### C6: the registry is shared mutable state across calls -/

/-- Counterexample to C6: two successive calls of check with the same
prefix and level do not return the same result, because the first call
mutates the shared registry: on the node with prefix 0x71 at level 2 the
first call reports 16 entries and the repeat reports 0. -/
theorem c6_counterexample :
    (check 0x71 2 []).1 = 16
    ∧ (check 0x71 2 ((check 0x71 2 []).2.2)).1 = 0
    ∧ (16 : Nat) ≠ 0 :=
  ⟨by decide, by decide, by decide⟩

/-- C6 amended: check is a pure function of (prefix, level, registry
contents); the hash it reports depends only on (prefix, level), while the
entry count depends on the registry, and repeating a call on the registry
left by the first call always reports zero entries. -/
theorem c6_amended (pfx lvl : Nat) (s1 s2 : List PVal) :
    (check pfx lvl s1).2.1 = (check pfx lvl s2).2.1
    ∧ (check pfx lvl ((check pfx lvl s1).2.2)).1 = 0 := by
  constructor
  · simp only [check, checkAux_key]
  · simp only [check]
    apply checkAux_zero_of_all_seen
    intro k hk
    exact checkAux_post_in_out (4 - lvl) pfx lvl s1 k hk

/-! ### Children sums for the cost model of C5 -/

/-- Shifting the starting child one to the right absorbs one application
of the child function into the initial registry. -/
theorem kidStates_shift (f : Nat → List PVal → Nat × PVal × List PVal)
    (b : Nat) (s : List PVal) :
    ∀ i, kidStates f (b + 1) ((f b s).2.2) i = kidStates f b s (i + 1) := by
  intro i
  induction i with
  | zero => rfl
  | succ i ih =>
    simp only [kidStates]
    rw [ih, show b + 1 + i = b + (i + 1) from by omega]
    rfl

/-- The entries accumulated by runKids are the sum of the entries of the
sixteen children, each evaluated on the registry threaded from its left
siblings, and the final registry is the threaded one. -/
theorem runKids_sum (f : Nat → List PVal → Nat × PVal × List PVal)
    (base : Nat) :
    ∀ n j s,
      (runKids f base j n s).1
          = ∑ i ∈ Finset.range n,
              (f (base + j + i) (kidStates f (base + j) s i)).1
        ∧ (runKids f base j n s).2.2 = kidStates f (base + j) s n := by
  intro n
  induction n with
  | zero => intro j s; simp [runKids, kidStates]
  | succ n ih =>
    intro j s
    simp only [runKids]
    obtain ⟨ih1, ih2⟩ := ih (j + 1) ((f (base + j) s).2.2)
    have hb : base + (j + 1) = (base + j) + 1 := by omega
    have hterm : ∀ i : Nat,
        (f (base + (j + 1) + i)
          (kidStates f (base + (j + 1)) ((f (base + j) s).2.2) i)).1
        = (f (base + j + (i + 1)) (kidStates f (base + j) s (i + 1))).1 := by
      intro i
      rw [hb, kidStates_shift,
        show base + j + 1 + i = base + j + (i + 1) from by omega]
    constructor
    · rw [ih1, Finset.sum_range_succ']
      have hsum : (∑ i ∈ Finset.range n,
          (f (base + (j + 1) + i)
            (kidStates f (base + (j + 1)) ((f (base + j) s).2.2) i)).1)
          = ∑ i ∈ Finset.range n,
              (f (base + j + (i + 1)) (kidStates f (base + j) s (i + 1))).1 :=
        Finset.sum_congr rfl fun i _ => hterm i
      have he : (f (base + j + 0) (kidStates f (base + j) s 0)).1
          = (f (base + j) s).1 := rfl
      rw [hsum, he]
      omega
    · rw [ih2, hb, kidStates_shift]

/-! ### C5: the cost model of check -/

/-- Counterexample to C5: the node with prefix 0x4E4 at level 3 collapses
into a first-seen leaf yet is counted as (3 - 3) * 16 = 0 entries where
the claim demands (4 - 3) * 16 = 16, and a level-4 node is counted as 0
entries where the claim demands 1. -/
theorem c5_counterexample :
    scan 0x4E4 3 = (true, some "TRAP")
    ∧ leafKey (some "TRAP") 3 ∉ ([] : List PVal)
    ∧ (check 0x4E4 3 []).1 = 0
    ∧ (check 0x4E40 4 []).1 = 0
    ∧ (4 - 3) * 16 = 16
    ∧ ((0 : Nat) ≠ 16)
    ∧ ((0 : Nat) ≠ 1) :=
  ⟨by decide, by decide, by decide, by decide, by decide, by decide, by decide⟩

/-- C5 amended: the cost accounting of check counts a first-seen Leaf at
level 0 to 3 as (3 - level) * 16 entries (0 when already seen), counts a
level-4 node as 0 entries, and counts a first-seen Branch as 16 plus the
sum of the entry counts of its 16 children, recursed at level + 1 on the
child prefixes (prefix <<< 4) + i with the registry threaded left to
right (0 when the branch shape was already seen). -/
theorem c5_amended (pfx lvl : Nat) (s : List PVal) :
    ((4 ≤ lvl) → (check pfx lvl s).1 = 0)
    ∧ ((lvl < 4) → (scan pfx lvl).1 = true →
        (check pfx lvl s).1
          = if leafKey (scan pfx lvl).2 lvl ∈ s then 0 else (3 - lvl) * 16)
    ∧ ((lvl < 4) → (scan pfx lvl).1 = false →
        (check pfx lvl s).1
          = if nodeKey pfx lvl
              ∈ (runKids (fun w l => check w (lvl + 1) l)
                  (pfx <<< 4) 0 16 s).2.2
            then 0
            else 16 + ∑ i ∈ Finset.range 16,
              (check ((pfx <<< 4) + i) (lvl + 1)
                (kidStates (fun w l => check w (lvl + 1) l)
                  (pfx <<< 4) s i)).1) := by
  refine ⟨?_, ?_, ?_⟩
  · intro h4
    rw [check_eq_lvl4 _ _ _ h4]
    simp only [lvl4Body]
    split <;> rfl
  · intro h4 hsame
    rw [check_unfold _ _ _ h4]
    rcases hscan : scan pfx lvl with ⟨b, m0⟩
    rw [hscan] at hsame
    cases b
    · simp at hsame
    · simp only [hscan]
      split <;> rfl
  · intro h4 hfalse
    rw [check_unfold _ _ _ h4]
    rcases hscan : scan pfx lvl with ⟨b, m0⟩
    rw [hscan] at hfalse
    cases b
    case false =>
      simp only [hscan]
      have hkey : ∀ (w : Nat) (l : List PVal),
          (check w (lvl + 1) l).2.1 = nodeKey w (lvl + 1) := by
        intro w l
        simp only [check, nodeKey, checkAux_key]
      have hkeys : (runKids (fun w l => check w (lvl + 1) l)
          (pfx <<< 4) 0 16 s).2.1
          = (List.range' 0 16).map fun j => nodeKey ((pfx <<< 4) + j) (lvl + 1) :=
        runKids_keys _ _ _ hkey 16 0 s
      have hnk : nodeKey pfx lvl
          = PVal.tup ((List.range' 0 16).map fun j =>
              nodeKey ((pfx <<< 4) + j) (lvl + 1)) := by
        rw [nodeKey, show 4 - lvl = (4 - (lvl + 1)) + 1 from by omega,
          nodeKeyAux, if_pos h4, hscan]
        rfl
      have hsum := (runKids_sum (fun w l => check w (lvl + 1) l)
        (pfx <<< 4) 16 0 s).1
      simp only [Nat.add_zero] at hsum
      rw [hkeys, ← hnk, hsum]
      split <;> rfl
    case true => simp at hfalse

/-- Witness for C5 at concrete nodes: the level-4 clause at word 0x4E40,
the leaf clause at the collapsed node (0x4E4, 3), and the branch clause at
the node (0x4E7, 3), all on the empty registry. -/
theorem c5_amended_witness :
    ((4 : Nat) ≤ 4 ∧ (check 0x4E40 4 []).1 = 0)
    ∧ ((3 : Nat) < 4 ∧ (scan 0x4E4 3).1 = true ∧
        (check 0x4E4 3 []).1
          = if leafKey (scan 0x4E4 3).2 3 ∈ ([] : List PVal) then 0
            else (3 - 3) * 16)
    ∧ ((3 : Nat) < 4 ∧ (scan 0x4E7 3).1 = false ∧
        (check 0x4E7 3 []).1
          = if nodeKey 0x4E7 3
              ∈ (runKids (fun w l => check w 4 l) (0x4E7 <<< 4) 0 16 []).2.2
            then 0
            else 16 + ∑ i ∈ Finset.range 16,
              (check ((0x4E7 <<< 4) + i) 4
                (kidStates (fun w l => check w 4 l) (0x4E7 <<< 4) [] i)).1) :=
  ⟨⟨le_refl 4, (c5_amended 0x4E40 4 []).1 (le_refl 4)⟩,
    ⟨by decide, by decide, (c5_amended 0x4E4 3 []).2.1 (by decide) (by decide)⟩,
    ⟨by decide, by decide, (c5_amended 0x4E7 3 []).2.2 (by decide) (by decide)⟩⟩

/-! ### C7: leaf hashes and levels -/

/-- Length of a Python string repetition. -/
theorem pyRepeat_length (s : String) : ∀ n, (pyRepeat s n).length = n * s.length := by
  intro n
  induction n with
  | zero => rw [Nat.zero_mul]; rfl
  | succ n ih =>
    simp only [pyRepeat, String.length_append, ih]
    ring

/-- A nonempty string has nonzero length. -/
theorem str_length_ne_zero (m : String) (h : m ≠ "") : m.length ≠ 0 := by
  intro h0
  apply h
  cases m with
  | mk data =>
    simp only [String.length] at h0
    have hdata : data = [] := List.length_eq_zero.mp h0
    rw [hdata]

/-- Counterexample to C7: the node with prefix 0x4E4 at level 3 is a
collapsed leaf answering TRAP, the level-4 node at word 0x4E40 answers
TRAP as well, and check assigns the two leaves the same hash even though
their levels differ. -/
theorem c7_counterexample :
    scan 0x4E4 3 = (true, some "TRAP")
    ∧ matchW 0x4E40 = some "TRAP"
    ∧ (check 0x4E4 3 []).2.1 = (check 0x4E40 4 []).2.1
    ∧ (3 : Nat) ≠ 4 :=
  ⟨by decide, by decide, by decide, by decide⟩

/-- C7 amended: among the levels 0 to 3 the leaf hash does encode the
level (the mnemonic, or the string None, is repeated 4 - level times, so
equal answers at distinct levels below 4 hash apart), and a branch hashes
the ordered tuple of its sixteen children hashes; but a level-3 leaf and a
level-4 node with the same mnemonic receive identical hashes, because one
repetition of the mnemonic is the mnemonic itself. -/
theorem c7_amended :
    (∀ (m : String) (l1 l2 : Nat), m ≠ "" → l1 < 4 → l2 < 4 → l1 ≠ l2 →
        leafKey (some m) l1 ≠ leafKey (some m) l2)
    ∧ (∀ l1 l2 : Nat, l1 < 4 → l2 < 4 → l1 ≠ l2 →
        leafKey none l1 ≠ leafKey none l2)
    ∧ (∀ m : String, leafKey (some m) 3 = lvl4Key (some m))
    ∧ (∀ (pfx lvl : Nat) (s : List PVal), lvl < 4 → (scan pfx lvl).1 = false →
        (check pfx lvl s).2.1
          = PVal.tup ((List.range' 0 16).map fun i =>
              nodeKey ((pfx <<< 4) + i) (lvl + 1))) := by
  refine ⟨?_, ?_, ?_, ?_⟩
  · intro m l1 l2 hm h1 h2 hne heq
    simp only [leafKey, PVal.str.injEq] at heq
    have hlen := congrArg String.length heq
    rw [pyRepeat_length, pyRepeat_length] at hlen
    have hml := str_length_ne_zero m hm
    have : 4 - l1 = 4 - l2 := by
      rcases Nat.eq_zero_or_pos m.length with h0 | hpos
      · exact absurd h0 hml
      · exact Nat.eq_of_mul_eq_mul_right hpos hlen
    omega
  · intro l1 l2 h1 h2 hne heq
    simp only [leafKey, PVal.str.injEq] at heq
    have hlen := congrArg String.length heq
    rw [pyRepeat_length, pyRepeat_length] at hlen
    have : ("None" : String).length = 4 := by decide
    rw [this] at hlen
    omega
  · intro m
    simp only [leafKey, lvl4Key, pyRepeat]
    rw [String.append_empty]
  · intro pfx lvl s h4 hfalse
    rcases hscan : scan pfx lvl with ⟨b, m0⟩
    rw [hscan] at hfalse
    cases b
    case true => simp at hfalse
    case false =>
      have hkey : (check pfx lvl s).2.1 = nodeKey pfx lvl := by
        simp only [check, checkAux_key, nodeKey]
      rw [hkey, nodeKey, show 4 - lvl = (4 - (lvl + 1)) + 1 from by omega,
        nodeKeyAux, if_pos h4, hscan]
      rfl

/-- Witness for C7 amended, at the TRAP leaves of levels 2 and 3 and at
the branch with prefix 0x4E7 at level 3. -/
theorem c7_amended_witness :
    (("TRAP" : String) ≠ "" ∧ (2 : Nat) < 4 ∧ (3 : Nat) < 4 ∧ (2 : Nat) ≠ 3
      ∧ leafKey (some "TRAP") 2 ≠ leafKey (some "TRAP") 3)
    ∧ ((3 : Nat) < 4 ∧ (scan 0x4E7 3).1 = false
      ∧ (check 0x4E7 3 []).2.1
          = PVal.tup ((List.range' 0 16).map fun i =>
              nodeKey ((0x4E7 <<< 4) + i) 4)) :=
  ⟨⟨by decide, by decide, by decide, by decide,
      c7_amended.1 "TRAP" 2 3 (by decide) (by decide) (by decide) (by decide)⟩,
    ⟨by decide, by decide,
      c7_amended.2.2.2 0x4E7 3 [] (by decide) (by decide)⟩⟩

/-! ### C8: dedup accounting -/

/-- Splitting a first-seen accumulation over an append. -/
theorem fsSum_append : ∀ (a b : List (Nat × PVal)) (s : List PVal),
    fsSum (a ++ b) s
      = ((fsSum a s).1 + (fsSum b (fsSum a s).2).1, (fsSum b (fsSum a s).2).2) := by
  intro a
  induction a with
  | nil => intro b s; simp [fsSum]
  | cons ck rest ih =>
    intro b s
    obtain ⟨c, k⟩ := ck
    simp only [List.cons_append, fsSum]
    by_cases hk : k ∈ s
    · simp only [if_pos hk]
      exact ih b s
    · simp only [if_neg hk, List.append_eq]
      rw [ih b (k :: s)]
      refine Prod.ext ?_ rfl
      simp only []
      omega

/-- Everything in the registry after a first-seen accumulation was either
listed or already registered. -/
theorem fsSum_mem : ∀ (l : List (Nat × PVal)) (s : List PVal) (k : PVal),
    k ∈ (fsSum l s).2 → k ∈ l.map Prod.snd ∨ k ∈ s := by
  intro l
  induction l with
  | nil => intro s k hk; right; simpa [fsSum] using hk
  | cons ck rest ih =>
    intro s k hk
    obtain ⟨c, k0⟩ := ck
    simp only [fsSum] at hk
    by_cases h0 : k0 ∈ s
    · rw [if_pos h0] at hk
      rcases ih s k hk with h | h
      · exact Or.inl (List.mem_cons_of_mem _ h)
      · exact Or.inr h
    · rw [if_neg h0] at hk
      rcases ih (k0 :: s) k hk with h | h
      · exact Or.inl (List.mem_cons_of_mem _ h)
      · rcases List.mem_cons.mp h with rfl | h2
        · exact Or.inl (List.mem_cons_self _ _)
        · exact Or.inr h2

/-- The depth of every key in the post-order traversal of a node is at
most the depth of the node key. -/
theorem post_depth_le : ∀ (fuel pfx lvl : Nat),
    ∀ k ∈ (postNodesAux fuel pfx lvl).map Prod.snd,
      PVal.depth k ≤ PVal.depth (nodeKeyAux fuel pfx lvl) := by
  intro fuel
  induction fuel with
  | zero =>
    intro pfx lvl k hk
    simp only [postNodesAux, List.map_cons, List.map_nil,
      List.mem_singleton] at hk
    simp [hk, nodeKeyAux]
  | succ fuel ih =>
    intro pfx lvl k hk
    by_cases h4 : lvl < 4
    · rcases hscan : scan pfx lvl with ⟨same, matcher⟩
      cases same
      · simp only [postNodesAux, h4, if_true, hscan, List.map_append,
          List.mem_append, List.map_cons, List.map_nil,
          List.mem_singleton] at hk
        simp only [nodeKeyAux, h4, if_true, hscan]
        rcases hk with hkids | rfl
        · simp only [List.mem_map, List.mem_flatMap] at hkids
          obtain ⟨p, ⟨j, hj, hp⟩, hps⟩ := hkids
          have h1 : PVal.depth k
              ≤ PVal.depth (nodeKeyAux fuel ((pfx <<< 4) + j) (lvl + 1)) := by
            apply ih ((pfx <<< 4) + j) (lvl + 1)
            simp only [List.mem_map]
            exact ⟨p, hp, hps⟩
          have h2 : PVal.depth (nodeKeyAux fuel ((pfx <<< 4) + j) (lvl + 1))
              < PVal.depth (.tup ((List.range' 0 16).map fun i =>
                  nodeKeyAux fuel ((pfx <<< 4) + i) (lvl + 1))) := by
            apply PVal.depth_lt_tup
            simp only [List.mem_map]
            exact ⟨j, hj, rfl⟩
          omega
        · exact le_refl _
      · simp only [postNodesAux, h4, if_true, hscan, List.map_cons,
          List.map_nil, List.mem_singleton] at hk
        simp [hk, nodeKeyAux, h4, hscan]
    · simp only [postNodesAux, h4, if_false, List.map_cons, List.map_nil,
        List.mem_singleton] at hk
      simp [hk, nodeKeyAux, h4]

/-- Inserting an atomic (non-tuple) key preserves closedness. -/
theorem closed_insert_atom {s : List PVal} {k : PVal} (hs : ClosedReg s)
    (hk : ∀ ks : List PVal, k ≠ PVal.tup ks) : ClosedReg (k :: s) := by
  intro ks hks k2 hk2
  rcases List.mem_cons.mp hks with heq | hmem
  · exact absurd heq.symm (hk ks)
  · exact List.mem_cons_of_mem _ (hs ks hmem k2 hk2)

/-- Inserting a tuple key whose elements are all registered preserves
closedness. -/
theorem closed_insert_tup {s : List PVal} {ks : List PVal} (hs : ClosedReg s)
    (hks : ∀ k ∈ ks, k ∈ s) : ClosedReg (PVal.tup ks :: s) := by
  intro ks2 hks2 k2 hk2
  rcases List.mem_cons.mp hks2 with heq | hmem
  · obtain rfl : ks2 = ks := by
      injection heq with h
    exact List.mem_cons_of_mem _ (hks k2 hk2)
  · exact List.mem_cons_of_mem _ (hs ks2 hmem k2 hk2)

/-- A leaf key is never a tuple. -/
theorem leafKey_ne_tup (matcher : Option String) (lvl : Nat) :
    ∀ ks : List PVal, leafKey matcher lvl ≠ PVal.tup ks := by
  intro ks
  cases matcher <;> simp [leafKey]

/-- A level-4 key is never a tuple. -/
theorem lvl4Key_ne_tup (matcher : Option String) :
    ∀ ks : List PVal, lvl4Key matcher ≠ PVal.tup ks := by
  intro ks
  cases matcher <;> simp [lvl4Key]

/-- The key of a node lands in the registry check produces on it. -/
theorem checkAux_key_in_out (fuel pfx lvl : Nat) (s : List PVal) :
    nodeKeyAux fuel pfx lvl ∈ (checkAux fuel pfx lvl s).2.2 :=
  checkAux_post_in_out fuel pfx lvl s _ (key_mem_post fuel pfx lvl)

/-- The registry stays closed through runKids when it stays closed
through the child function. -/
theorem runKids_closed (f : Nat → List PVal → Nat × PVal × List PVal)
    (base : Nat) (hf : ∀ w l, ClosedReg l → ClosedReg ((f w l).2.2)) :
    ∀ n i luts, ClosedReg luts → ClosedReg ((runKids f base i n luts).2.2) := by
  intro n
  induction n with
  | zero => intro i luts h; simpa [runKids] using h
  | succ n ih =>
    intro i luts h
    simp only [runKids]
    exact ih (i + 1) _ (hf _ _ h)

/-- The registry stays closed through check. -/
theorem checkAux_closed : ∀ (fuel pfx lvl : Nat) (s : List PVal),
    ClosedReg s → ClosedReg ((checkAux fuel pfx lvl s).2.2) := by
  intro fuel
  induction fuel with
  | zero =>
    intro pfx lvl s hs
    simp only [checkAux, lvl4Body]
    split
    · exact hs
    · exact closed_insert_atom hs (lvl4Key_ne_tup _)
  | succ fuel ih =>
    intro pfx lvl s hs
    by_cases h4 : lvl < 4
    · rcases hscan : scan pfx lvl with ⟨same, matcher⟩
      cases same
      · simp only [checkAux, if_pos h4, hscan]
        have hclr : ClosedReg ((runKids (fun w l => checkAux fuel w (lvl + 1) l)
            (pfx <<< 4) 0 16 s).2.2) :=
          runKids_closed _ _ (fun w l hl => ih w (lvl + 1) l hl) 16 0 s hs
        split
        · exact hclr
        · -- the inserted tuple lists exactly the child keys, each of which
          -- is in the registry left by the children
          rw [runKids_keys _ _ _ (fun w l => checkAux_key fuel w (lvl + 1) l)]
          apply closed_insert_tup hclr
          intro k hk
          simp only [List.mem_map] at hk
          obtain ⟨j, hj, rfl⟩ := hk
          apply runKids_mem_out _ _
            (fun w k => k = nodeKeyAux fuel w (lvl + 1))
            (fun w l k hq => hq ▸ checkAux_key_in_out fuel w (lvl + 1) l)
            (fun w l => checkAux_mono fuel w (lvl + 1) l)
          exact ⟨j, hj, rfl⟩
      · simp only [checkAux, if_pos h4, hscan]
        split
        · exact hs
        · exact closed_insert_atom hs (leafKey_ne_tup _ _)
    · simp only [checkAux, if_neg h4, lvl4Body]
      split
      · exact hs
      · exact closed_insert_atom hs (lvl4Key_ne_tup _)

/-- Unfolding the node key at a branch. -/
theorem nodeKeyAux_branch (fuel pfx lvl : Nat) (h4 : lvl < 4)
    (m0 : Option String) (hscan : scan pfx lvl = (false, m0)) :
    nodeKeyAux (fuel + 1) pfx lvl
      = PVal.tup ((List.range' 0 16).map fun i =>
          nodeKeyAux fuel ((pfx <<< 4) + i) (lvl + 1)) := by
  rw [nodeKeyAux, if_pos h4, hscan]

/-- Unfolding the node key at a collapsed leaf. -/
theorem nodeKeyAux_leaf (fuel pfx lvl : Nat) (h4 : lvl < 4)
    (matcher : Option String) (hscan : scan pfx lvl = (true, matcher)) :
    nodeKeyAux (fuel + 1) pfx lvl = leafKey matcher lvl := by
  rw [nodeKeyAux, if_pos h4, hscan]

/-- Unfolding the node key at level 4 and beyond. -/
theorem nodeKeyAux_lvl4 (fuel pfx lvl : Nat) (h4 : ¬ lvl < 4) :
    nodeKeyAux (fuel + 1) pfx lvl = lvl4Key (matchW pfx) := by
  rw [nodeKeyAux, if_neg h4]

/-- When every child instantly reports zero entries, its own key, and an
unchanged registry, so does the whole child loop. -/
theorem runKids_fix (f : Nat → List PVal → Nat × PVal × List PVal)
    (base : Nat) (keyOf : Nat → PVal)
    (hf : ∀ w l, ClosedReg l → keyOf w ∈ l → f w l = (0, keyOf w, l)) :
    ∀ n i luts, ClosedReg luts →
      (∀ j ∈ List.range' i n, keyOf (base + j) ∈ luts) →
      runKids f base i n luts
        = (0, (List.range' i n).map fun j => keyOf (base + j), luts) := by
  intro n
  induction n with
  | zero => intro i luts _ _; simp [runKids]
  | succ n ih =>
    intro i luts hcl hall
    rw [List.range'_succ]
    simp only [runKids, List.map_cons]
    rw [hf (base + i) luts hcl
      (hall i (by rw [List.range'_succ]; exact List.mem_cons_self _ _))]
    simp only []
    rw [ih (i + 1) luts hcl
      (fun j hj => hall j
        (by rw [List.range'_succ]; exact List.mem_cons_of_mem _ hj))]
    simp

/-- A node whose key is registered in a closed registry contributes
nothing: check returns zero entries, the key, and the unchanged
registry. -/
theorem checkAux_seen : ∀ (fuel pfx lvl : Nat) (s : List PVal), ClosedReg s →
    nodeKeyAux fuel pfx lvl ∈ s →
    checkAux fuel pfx lvl s = (0, nodeKeyAux fuel pfx lvl, s) := by
  intro fuel
  induction fuel with
  | zero =>
    intro pfx lvl s _ hk
    simp only [nodeKeyAux] at hk ⊢
    simp only [checkAux, lvl4Body]
    rw [if_pos hk]
  | succ fuel ih =>
    intro pfx lvl s hcl hk
    by_cases h4 : lvl < 4
    · rcases hscan : scan pfx lvl with ⟨same, matcher⟩
      cases same
      · rw [nodeKeyAux_branch fuel pfx lvl h4 matcher hscan] at hk ⊢
        have hkids : ∀ j ∈ List.range' 0 16,
            nodeKeyAux fuel ((pfx <<< 4) + j) (lvl + 1) ∈ s := by
          intro j hj
          apply hcl _ hk
          simp only [List.mem_map]
          exact ⟨j, hj, rfl⟩
        simp only [checkAux, if_pos h4, hscan]
        rw [runKids_fix _ _ _ (fun w l hcl2 hm => ih w (lvl + 1) l hcl2 hm)
          16 0 s hcl hkids]
        simp only []
        rw [if_pos hk]
      · rw [nodeKeyAux_leaf fuel pfx lvl h4 matcher hscan] at hk ⊢
        simp only [checkAux, if_pos h4, hscan]
        rw [if_pos hk]
    · rw [nodeKeyAux_lvl4 fuel pfx lvl h4] at hk ⊢
      simp only [checkAux, if_neg h4, lvl4Body]
      rw [if_pos hk]

/-- A node whose key is registered in a closed registry also accumulates
nothing in the post-order first-seen sum. -/
theorem fsSum_post_seen : ∀ (fuel pfx lvl : Nat) (s : List PVal), ClosedReg s →
    nodeKeyAux fuel pfx lvl ∈ s →
    fsSum (postNodesAux fuel pfx lvl) s = (0, s) := by
  intro fuel
  induction fuel with
  | zero =>
    intro pfx lvl s _ hk
    simp only [nodeKeyAux] at hk
    simp [postNodesAux, fsSum, hk]
  | succ fuel ih =>
    intro pfx lvl s hcl hk
    by_cases h4 : lvl < 4
    · rcases hscan : scan pfx lvl with ⟨same, matcher⟩
      cases same
      · rw [nodeKeyAux_branch fuel pfx lvl h4 matcher hscan] at hk
        have hkids : ∀ j ∈ List.range' 0 16,
            nodeKeyAux fuel ((pfx <<< 4) + j) (lvl + 1) ∈ s := by
          intro j hj
          apply hcl _ hk
          simp only [List.mem_map]
          exact ⟨j, hj, rfl⟩
        simp only [postNodesAux, if_pos h4, hscan]
        rw [fsSum_append]
        have hflat : ∀ L : List Nat,
            (∀ j ∈ L, nodeKeyAux fuel ((pfx <<< 4) + j) (lvl + 1) ∈ s) →
            fsSum (L.flatMap fun j =>
              postNodesAux fuel ((pfx <<< 4) + j) (lvl + 1)) s = (0, s) := by
          intro L
          induction L with
          | nil => intro _; simp [fsSum]
          | cons j rest ihL =>
            intro hall
            simp only [List.flatMap_cons]
            rw [fsSum_append,
              ih ((pfx <<< 4) + j) (lvl + 1) s hcl
                (hall j (List.mem_cons_self _ _)),
              ihL fun j2 hj2 => hall j2 (List.mem_cons_of_mem _ hj2)]
            simp
        rw [hflat _ hkids]
        simp [fsSum, hk]
      · rw [nodeKeyAux_leaf fuel pfx lvl h4 matcher hscan] at hk
        simp only [postNodesAux, if_pos h4, hscan]
        simp [fsSum, hk]
    · rw [nodeKeyAux_lvl4 fuel pfx lvl h4] at hk
      simp only [postNodesAux, if_neg h4]
      simp [fsSum, hk]

/-- Main dedup accounting: on a closed registry, check returns exactly the
post-order first-seen accumulation of the subtree, the node key, and the
registry the accumulation leaves behind. -/
theorem checkAux_fsSum : ∀ (fuel pfx lvl : Nat) (s : List PVal), ClosedReg s →
    checkAux fuel pfx lvl s
      = ((fsSum (postNodesAux fuel pfx lvl) s).1, nodeKeyAux fuel pfx lvl,
         (fsSum (postNodesAux fuel pfx lvl) s).2) := by
  intro fuel
  induction fuel with
  | zero =>
    intro pfx lvl s _
    simp only [checkAux, lvl4Body, postNodesAux, nodeKeyAux]
    by_cases hk : lvl4Key (matchW pfx) ∈ s
    · simp [fsSum, hk]
    · simp [fsSum, hk]
  | succ fuel ih =>
    intro pfx lvl s hcl
    by_cases h4 : lvl < 4
    · rcases hscan : scan pfx lvl with ⟨same, matcher⟩
      cases same
      · -- branch
        by_cases hk : nodeKeyAux (fuel + 1) pfx lvl ∈ s
        · rw [checkAux_seen (fuel + 1) pfx lvl s hcl hk,
            fsSum_post_seen (fuel + 1) pfx lvl s hcl hk]
        · have hkeq := nodeKeyAux_branch fuel pfx lvl h4 matcher hscan
          have hkids : ∀ (n i : Nat) (luts : List PVal), ClosedReg luts →
              runKids (fun w l => checkAux fuel w (lvl + 1) l) (pfx <<< 4) i n luts
                = ((fsSum ((List.range' i n).flatMap fun j =>
                      postNodesAux fuel ((pfx <<< 4) + j) (lvl + 1)) luts).1,
                   (List.range' i n).map fun j =>
                      nodeKeyAux fuel ((pfx <<< 4) + j) (lvl + 1),
                   (fsSum ((List.range' i n).flatMap fun j =>
                      postNodesAux fuel ((pfx <<< 4) + j) (lvl + 1)) luts).2) := by
            intro n
            induction n with
            | zero => intro i luts _; simp [runKids, fsSum]
            | succ n ihn =>
              intro i luts hcl2
              rw [List.range'_succ]
              simp only [runKids, List.flatMap_cons, List.map_cons]
              rw [fsSum_append, ih ((pfx <<< 4) + i) (lvl + 1) luts hcl2]
              have hcl3 : ClosedReg
                  ((fsSum (postNodesAux fuel ((pfx <<< 4) + i) (lvl + 1)) luts).2) := by
                have hc := checkAux_closed fuel ((pfx <<< 4) + i) (lvl + 1) luts hcl2
                rw [ih ((pfx <<< 4) + i) (lvl + 1) luts hcl2] at hc
                exact hc
              rw [ihn (i + 1) _ hcl3]
          have hflatkeys := hkids 16 0 s hcl
          have hnot : nodeKeyAux (fuel + 1) pfx lvl ∉
              (fsSum ((List.range' 0 16).flatMap fun j =>
                postNodesAux fuel ((pfx <<< 4) + j) (lvl + 1)) s).2 := by
            intro hmem
            rcases fsSum_mem _ _ _ hmem with hpost | hins
            · simp only [List.map_flatMap, List.mem_flatMap,
                List.mem_map] at hpost
              obtain ⟨j, hj, hp⟩ := hpost
              have hle : PVal.depth (nodeKeyAux (fuel + 1) pfx lvl)
                  ≤ PVal.depth (nodeKeyAux fuel ((pfx <<< 4) + j) (lvl + 1)) := by
                apply post_depth_le fuel ((pfx <<< 4) + j) (lvl + 1)
                simpa using hp
              have hlt : PVal.depth (nodeKeyAux fuel ((pfx <<< 4) + j) (lvl + 1))
                  < PVal.depth (nodeKeyAux (fuel + 1) pfx lvl) := by
                rw [hkeq]
                apply PVal.depth_lt_tup
                simp only [List.mem_map]
                exact ⟨j, hj, rfl⟩
              omega
            · exact hk hins
          simp only [checkAux, postNodesAux, if_pos h4, hscan]
          rw [hflatkeys]
          simp only []
          rw [fsSum_append, ← hkeq, if_neg hnot]
          simp only [fsSum, if_neg hnot]
          refine Prod.ext ?_ rfl
          simp only []
          omega
      · -- collapsed leaf
        simp only [checkAux, postNodesAux, if_pos h4, hscan,
          nodeKeyAux_leaf fuel pfx lvl h4 matcher hscan]
        by_cases hk : leafKey matcher lvl ∈ s
        · simp [fsSum, hk]
        · simp [fsSum, hk]
    · simp only [checkAux, lvl4Body, postNodesAux, if_neg h4,
        nodeKeyAux_lvl4 fuel pfx lvl h4]
      by_cases hk : lvl4Key (matchW pfx) ∈ s
      · simp [fsSum, hk]
      · simp [fsSum, hk]

/-- C8.  Deduplication never double-counts: on any closed registry (the
empty registry of the script in particular) the entry total reported by
check equals the post-order first-seen accumulation, in which a node whose
hash is already registered contributes zero and a first-seen node has its
cost added and its hash registered. -/
theorem c8_dedup_first_seen_sum (pfx lvl : Nat) (s : List PVal)
    (hs : ClosedReg s) :
    (check pfx lvl s).1 = (fsSum (postNodes pfx lvl) s).1 := by
  simp only [check, postNodes]
  rw [checkAux_fsSum _ _ _ _ hs]

/-- Witness for C8 at the branch node with prefix 0x4E7, level 3, on the
empty registry. -/
theorem c8_dedup_first_seen_sum_witness :
    ClosedReg [] ∧ (check 0x4E7 3 []).1 = (fsSum (postNodes 0x4E7 3) []).1 :=
  ⟨closedReg_nil, c8_dedup_first_seen_sum 0x4E7 3 [] closedReg_nil⟩

/-! ### C2: the compiled table is not equivalent to the matcher -/

/-- C2 (code bug).  The collapse scan treats the leading unmatched words
of a range as if no answer had been seen yet, so the node with prefix
0x4C at level 2 collapses into a MOVEM leaf although the matcher returns
no match for its first 128 words: decoding 0x4C00 through the compiled
table answers MOVEM while the matcher answers none, refuting the
exhaustively-checked equivalence the claim states. -/
theorem c2_equivalence_failure :
    matchW 0x4C00 = none
    ∧ matchW 0x4C80 = some "MOVEM"
    ∧ scan 0x4C 2 = (true, some "MOVEM")
    ∧ decodeTable 0x4C00 = some "MOVEM"
    ∧ decodeTable 0x4C00 ≠ matchW 0x4C00 := by
  have h1 : matchW 0x4C00 = none := by decide
  have h4 : decodeTable 0x4C00 = some "MOVEM" := by decide
  exact ⟨h1, by decide, by decide, h4, by rw [h1, h4]; simp⟩

end Zgens
